import Mathlib

/-!
Verification development for the quote-to-timestamp resolution core of the
skv-audio archive site.

The embedding follows the TypeScript source: the data model of
`src/lib/manifest.ts` (`Word`, `Transcript`, `SegmentMetadata`, `Segment`)
and the search API handler (`findQuoteInSegment`, `findSegmentForQuote`,
claim validation, deduplication, and model-response parsing).  JavaScript
strings are modelled as Lean `String` (reasoned about through their `List
Char` data), JavaScript numbers as `ℚ` (all the arithmetic the core performs
on them — subtraction, comparison against `0.6 * n` for `n ≤ 5`, absolute
difference against 10 — is exact at these values), and the JS `Map` built
from the manifest as a list of segments with distinct `audioFile` keys.
-/

namespace SkvAudio

attribute [local semireducible] Rat.sub Rat.mul Rat.add Rat.inv Rat.ofScientific

/-- Characters of the JS `\w` class: ASCII alphanumerics and underscore. -/
def isWordChar (c : Char) : Bool :=
  c.isAlphanum || c == '_'

/-- Characters of the JS `\s` class (the ASCII whitespace characters:
space, tab, newline, carriage return, vertical tab, form feed). -/
def isSpaceChar (c : Char) : Bool :=
  c == ' ' || c == '\t' || c == '\n' || c == '\r' || c == Char.ofNat 11 || c == Char.ofNat 12

/-- JS `String.prototype.trim`: drop whitespace from both ends. -/
def trimChars (l : List Char) : List Char :=
  (((l.dropWhile isSpaceChar).reverse).dropWhile isSpaceChar).reverse

/-- Whether `t` is an initial run of `l` (character-wise). -/
def hasPrefixChars : List Char → List Char → Bool
  | _, [] => true
  | [], _ :: _ => false
  | a :: l, b :: t => a == b && hasPrefixChars l t

/-- Whether `t` is a final run of `l` (character-wise). -/
def hasSuffixChars (l t : List Char) : Bool :=
  hasPrefixChars l.reverse t.reverse

/-- Whether `t` occurs contiguously inside `l`; JS `String.prototype.includes`. -/
def hasSubstrChars : List Char → List Char → Bool
  | l, t =>
    if hasPrefixChars l t then true
    else
      match l with
      | [] => false
      | _ :: l2 => hasSubstrChars l2 t

/-- JS `s.includes(sub)` on strings. -/
def strIncludes (s sub : String) : Bool :=
  hasSubstrChars s.data sub.data

/-- JS `s.toLowerCase()` (character-wise lowering; exact on ASCII data). -/
def lowerString (s : String) : String :=
  String.mk (s.data.map Char.toLower)

/-- JS `s.replace(/[^\w\s]/g, "")`: keep only word and whitespace characters. -/
def stripPunct (l : List Char) : List Char :=
  l.filter (fun c => isWordChar c || isSpaceChar c)

/-- The cleanup applied to each transcript word and to the quote:
`x.toLowerCase().replace(/[^\w\s]/g, "").trim()`. -/
def cleanToken (s : String) : String :=
  String.mk (trimChars (stripPunct (s.data.map Char.toLower)))

/-- Split a character run into maximal whitespace-free words, accumulator
holding the current word reversed; models `split(/\s+/)` followed by
`.filter(w => w.length > 0)`, which keeps exactly the non-empty runs. -/
def splitRunsAux : List Char → List Char → List String
  | [], acc => if acc.isEmpty then [] else [String.mk acc.reverse]
  | c :: rest, acc =>
    if isSpaceChar c then
      if acc.isEmpty then splitRunsAux rest []
      else String.mk acc.reverse :: splitRunsAux rest []
    else splitRunsAux rest (c :: acc)

/-- The normalized word sequence of a quote:
`quote.toLowerCase().replace(/[^\w\s]/g, "").trim().split(/\s+/).filter(w => w.length > 0)`. -/
def quoteWordsOf (quote : String) : List String :=
  splitRunsAux (trimChars (stripPunct (quote.data.map Char.toLower))) []

/-- One spoken token with absolute timestamps (`manifest.ts` `Word`). -/
structure Word where
  word : String
  start : ℚ
  «end» : ℚ
deriving DecidableEq

/-- A segment transcript (`manifest.ts` `Transcript`). -/
structure Transcript where
  text : String
  words : List Word
deriving DecidableEq

/-- Segment metadata (`manifest.ts` `SegmentMetadata`). -/
structure SegmentMetadata where
  subject : String
  description : String
  segmentIndex : Nat
  duration : ℚ
  startTime : ℚ
  endTime : ℚ
deriving DecidableEq

/-- One audio segment (`manifest.ts` `Segment`). -/
structure Segment where
  audioFile : String
  metadata : SegmentMetadata
  transcript : Transcript
deriving DecidableEq

/-- Return value of `findQuoteInSegment`. -/
structure QuoteResult where
  found : Bool
  timestamp : ℚ
deriving DecidableEq

/-- A claimed match from the model (search handler `GeminiMatch`). -/
structure GeminiMatch where
  audioFile : String
  quote : String
  subject : String
deriving DecidableEq

/-- A verified search result (search handler `SearchResult`). -/
structure SearchResult where
  audioFile : String
  timestamp : ℚ
  subject : String
  quote : String
deriving DecidableEq

/-- The anchor test at a candidate start (line 101 of the handler):
`cleanWord === firstQuoteWord || cleanWord.includes(firstQuoteWord)`. -/
def anchorMatch (cleanWord firstQuoteWord : String) : Bool :=
  cleanWord == firstQuoteWord || strIncludes cleanWord firstQuoteWord

/-- The per-pair test for lookahead words (line 109):
`nextWord === quoteWords[j] || nextWord.includes(quoteWords[j]) || quoteWords[j].includes(nextWord)`. -/
def pairRule (nextWord qw : String) : Bool :=
  nextWord == qw || strIncludes nextWord qw || strIncludes qw nextWord

/-- The body of one iteration of the verification loop: `rest` is the word
list after the candidate start, so the transcript word at absolute offset
`i + j` is `rest[j - 1]`; the `rest.get? (j-1) = some _` test is the source's
`i + j < words.length` bound check. -/
def lookNext (rest : List Word) (qws : List String) (j : Nat) : Bool :=
  match rest.get? (j - 1) with
  | some nw => pairRule (cleanToken nw.word) (qws.getD j "")
  | none => false

/-- The verification loop `for (let j = 1; j < wordsToCheck; j++)`, counting
matched lookahead words; `remaining` is the number of iterations left
(`wordsToCheck - j`). -/
def matchCountFrom (rest : List Word) (qws : List String) : Nat → Nat → Nat
  | _, 0 => 0
  | j, remaining + 1 =>
    (if lookNext rest qws j then 1 else 0) + matchCountFrom rest qws (j + 1) remaining

/-- The scan over transcript words (the `for (let i = 0; ...)` loop of
`findQuoteInSegment`), as structural recursion on the remaining suffix. -/
def scanWords (startTime : ℚ) (qws : List String) (firstQuoteWord : String) : List Word → QuoteResult
  | [] => { found := false, timestamp := 0 }
  | w :: rest =>
    let cleanWord := cleanToken w.word
    if anchorMatch cleanWord firstQuoteWord then
      let wordsToCheck := min qws.length 5
      let matchCount := 1 + matchCountFrom rest qws 1 (wordsToCheck - 1)
      if ((matchCount : ℚ) ≥ (wordsToCheck : ℚ) * 0.6) then
        { found := true, timestamp := max 0 (w.start - startTime) }
      else scanWords startTime qws firstQuoteWord rest
    else scanWords startTime qws firstQuoteWord rest

/-- The Quote Locator (`findQuoteInSegment` in the search handler). -/
def findQuoteInSegment (segment : Segment) (quote : String) : QuoteResult :=
  let words := segment.transcript.words
  if words.isEmpty then
    if strIncludes (lowerString segment.transcript.text) (lowerString quote) then
      { found := true, timestamp := 0 }
    else
      { found := false, timestamp := 0 }
  else
    match quoteWordsOf quote with
    | [] => { found := false, timestamp := 0 }
    | firstQuoteWord :: restQuote =>
      scanWords segment.metadata.startTime (firstQuoteWord :: restQuote) firstQuoteWord words

/-- Corpus Search (`findSegmentForQuote`): first segment, in corpus order,
whose transcript contains the quote. -/
def findSegmentForQuote : List Segment → String → Option (Segment × ℚ)
  | [], _ => none
  | seg :: rest, quote =>
    let result := findQuoteInSegment seg quote
    if result.found then some (seg, result.timestamp)
    else findSegmentForQuote rest quote

/-- Lookup in the `audioFile -> segment` map (`segmentMap.get`); the map is
built with distinct keys, modelled by a list searched for the first key hit. -/
def getSegment (store : List Segment) (id : String) : Option Segment :=
  store.find? (fun s => s.audioFile == id)

/-- Validation of one claimed match (the body of the `for (const match of
geminiMatches)` loop): verify against the claimed segment, else fall back to
corpus search, else drop. -/
def processClaim (store : List Segment) (m : GeminiMatch) : Option SearchResult :=
  match getSegment store m.audioFile with
  | some claimedSegment =>
    let checkResult := findQuoteInSegment claimedSegment m.quote
    if checkResult.found then
      some { audioFile := m.audioFile, timestamp := checkResult.timestamp,
             subject := claimedSegment.metadata.subject, quote := m.quote }
    else
      match findSegmentForQuote store m.quote with
      | some (correctSegment, t) =>
        some { audioFile := correctSegment.audioFile, timestamp := t,
               subject := correctSegment.metadata.subject, quote := m.quote }
      | none => none
  | none =>
    match findSegmentForQuote store m.quote with
    | some (correctSegment, t) =>
      some { audioFile := correctSegment.audioFile, timestamp := t,
             subject := correctSegment.metadata.subject, quote := m.quote }
    | none => none

/-- The `results` array accumulated over all claims, before deduplication. -/
def rawResults (claims : List GeminiMatch) (store : List Segment) : List SearchResult :=
  claims.filterMap (processClaim store)

/-- The duplicate test of the final filter:
`r.audioFile === result.audioFile && Math.abs(r.timestamp - result.timestamp) < 10`. -/
def isDupOf (r result : SearchResult) : Bool :=
  r.audioFile == result.audioFile && decide (|r.timestamp - result.timestamp| < 10)

/-- JS `Array.prototype.findIndex`, with running index. -/
def findIndexAux {α : Type} (p : α → Bool) : List α → Nat → Option Nat
  | [], _ => none
  | a :: l, i => if p a then some i else findIndexAux p l (i + 1)

/-- JS `Array.prototype.findIndex`. -/
def findIndexJs {α : Type} (p : α → Bool) (l : List α) : Option Nat :=
  findIndexAux p l 0

/-- The deduplication pass:
`results.filter((result, index, self) => index === self.findIndex(r => ...))`. -/
def dedup (results : List SearchResult) : List SearchResult :=
  ((results.enum.filter
      (fun p => findIndexJs (fun r => isDupOf r p.2) results == some p.1)).map Prod.snd)

/-- The Match Reconciler: validate or correct every claim in order, then
deduplicate. -/
def reconcile (claims : List GeminiMatch) (store : List Segment) : List SearchResult :=
  dedup (rawResults claims store)

/-- The acceptance test of the scan at absolute word index `i`, stated over
the whole word list: the anchor rule holds at `words[i]` and the fuzzy count
over the following words reaches the 60 percent threshold.  Used to state
theorems about where the scan stops. -/
def acceptsAt (words : List Word) (qws : List String) (firstQuoteWord : String) (i : Nat) : Bool :=
  match words.get? i with
  | none => false
  | some w =>
    anchorMatch (cleanToken w.word) firstQuoteWord &&
      decide (((1 + matchCountFrom (words.drop (i + 1)) qws 1 (min qws.length 5 - 1) : Nat) : ℚ) ≥
        ((min qws.length 5 : Nat) : ℚ) * 0.6)

/-- Keep test of the deduplication pass as the spec words it: a result is
kept iff no earlier element of the pre-deduplication list (kept or not) is a
duplicate of it. -/
def noEarlierDup (results : List SearchResult) (i : Nat) (r : SearchResult) : Bool :=
  (results.take i).all (fun b => !(isDupOf b r))

/-- The three-backtick fence, as character data. -/
def fence : List Char := "```".data

/-- The `json`-tagged opening fence, as character data. -/
def fenceJson : List Char := "```json".data

/-- The characters of the tag `json`. -/
def jsonTag : List Char := "json".data

/-- Model-response cleanup on character data (handler lines 217 to 226):
trim, strip a leading three-backtick fence (with or without the `json` tag),
strip a trailing three-backtick fence, trim again. -/
def cleanChars (l : List Char) : List Char :=
  let t := trimChars l
  let t2 :=
    if hasPrefixChars t fenceJson then t.drop 7
    else if hasPrefixChars t fence then t.drop 3
    else t
  let t3 := if hasSuffixChars t2 fence then t2.take (t2.length - 3) else t2
  trimChars t3

/-- Model-response cleanup on strings. -/
def cleanResponse (s : String) : String :=
  String.mk (cleanChars s.data)

/-- The shapes of a parsed JSON value the handler distinguishes: an array of
claimed matches, or anything else (`Array.isArray` fails). `JSON.parse`
itself is a JS builtin, not code of this repository; the parse function is
abstracted as a parameter returning `none` exactly when it throws. -/
inductive JsValue where
  | array : List GeminiMatch → JsValue
  | nonArray : JsValue

/-- Parsing of the model response (handler lines 228 to 237): clean the text,
parse it; a parse failure or a non-array value yields the empty claim list. -/
def parseClaims (parse : String → Option JsValue) (responseText : String) : List GeminiMatch :=
  match parse (cleanResponse responseText) with
  | some (JsValue.array ms) => ms
  | some JsValue.nonArray => []
  | none => []

/-- The search response body: `{ results: ... }`. -/
structure SearchResponse where
  results : List SearchResult
deriving DecidableEq

/-- The handler pipeline from the raw model response text to the HTTP 200
response body: parse the claims, reconcile them against the store. -/
def searchPipeline (parse : String → Option JsValue) (store : List Segment)
    (responseText : String) : SearchResponse :=
  { results := reconcile (parseClaims parse responseText) store }

/-- The lookahead comparison of the verification loop, stated over the whole
word list with absolute indices: the transcript word at `i + j` (if any)
against quote-word `j`.  Used to state theorems about the acceptance rule. -/
def lookaheadAt (words : List Word) (qws : List String) (i j : Nat) : Bool :=
  match words.get? (i + j) with
  | some nw => pairRule (cleanToken nw.word) (qws.getD j "")
  | none => false

/-- Stated from the spec words of claim C3: a candidate-start rule accepting
equality or containment in either direction.  This is the comparison
definition for the refinement claim; the source's rule is `anchorMatch`. -/
def anchorRuleSpec (w q : String) : Bool :=
  w == q || strIncludes w q || strIncludes q w

/-- Example segment with three timestamped words and zero start offset. -/
def segA : Segment :=
  ⟨"a.mp3", ⟨"subjA", "", 0, 0, 0, 0⟩,
    ⟨"alpha beta gamma", [⟨"alpha", 12, 13⟩, ⟨"beta", 15, 16⟩, ⟨"gamma", 25, 26⟩]⟩⟩

/-- Example segment containing the word "zeta". -/
def segB : Segment :=
  ⟨"b.mp3", ⟨"subjB", "", 0, 0, 0, 0⟩, ⟨"zeta", [⟨"zeta", 40, 41⟩]⟩⟩

/-- Example segment with start offset 100 and a word at absolute start 130. -/
def segC2 : Segment :=
  ⟨"t.mp3", ⟨"subjT", "", 0, 0, 100, 0⟩, ⟨"thirty", [⟨"thirty", 130, 131⟩]⟩⟩

/-- Example segment whose only transcript word is "he". -/
def segC3 : Segment :=
  ⟨"c.mp3", ⟨"subjC", "", 0, 0, 0, 0⟩, ⟨"he", [⟨"he", 0, 1⟩]⟩⟩

/-- Example segment whose only transcript word is "hello". -/
def segC3b : Segment :=
  ⟨"d.mp3", ⟨"subjD", "", 0, 0, 0, 0⟩, ⟨"hello", [⟨"hello", 5, 6⟩]⟩⟩

/-- Example segment with an empty word list and punctuation in its text. -/
def segC9 : Segment :=
  ⟨"e.mp3", ⟨"subjE", "", 0, 0, 0, 0⟩, ⟨"hi!!!", []⟩⟩

/-- Claim resolving in `segA` at timestamp 12. -/
def mA1 : GeminiMatch := ⟨"a.mp3", "alpha", "s1"⟩

/-- Claim resolving in `segA` at timestamp 15. -/
def mA2 : GeminiMatch := ⟨"a.mp3", "beta", "s2"⟩

/-- Claim resolving in `segA` at timestamp 25. -/
def mA3 : GeminiMatch := ⟨"a.mp3", "gamma", "s3"⟩

/-- Claim with an `audioFile` absent from the store, quote present in `segB`. -/
def mB : GeminiMatch := ⟨"zzz", "zeta", "sB"⟩

/-- Claim whose quote occurs in no segment. -/
def mNone : GeminiMatch := ⟨"a.mp3", "xyzzy", "sN"⟩

/-- Example result at timestamp 0. -/
def resT0 : SearchResult := ⟨"a.mp3", 0, "s", "q0"⟩

/-- Example result at timestamp 9. -/
def resT9 : SearchResult := ⟨"a.mp3", 9, "s", "q9"⟩

/-- Example result at timestamp 18. -/
def resT18 : SearchResult := ⟨"a.mp3", 18, "s", "q18"⟩

theorem findIndexAux_succ {α : Type} (p : α → Bool) (l : List α) (n : Nat) :
    findIndexAux p l (n + 1) = (findIndexAux p l n).map (· + 1) := by
  induction l generalizing n with
  | nil => rfl
  | cons a t ih =>
    by_cases h : p a
    · simp [findIndexAux, h]
    · simp [findIndexAux, h, ih]

theorem findIndexJs_cons {α : Type} (p : α → Bool) (a : α) (l : List α) :
    findIndexJs p (a :: l) = if p a then some 0 else (findIndexJs p l).map (· + 1) := by
  by_cases h : p a <;> simp [findIndexJs, findIndexAux, h, findIndexAux_succ]

theorem findIndexJs_eq_some_iff {α : Type} (p : α → Bool) :
    ∀ (l : List α) (i : Nat) (a : α), l.get? i = some a → p a = true →
      ((findIndexJs p l = some i) ↔ (l.take i).all (fun b => !p b) = true) := by
  intro l
  induction l with
  | nil => intro i a h _; simp at h
  | cons x t ih =>
    intro i a h hp
    cases i with
    | zero =>
      obtain rfl : x = a := Option.some.inj h
      simp [findIndexJs_cons, hp]
    | succ j =>
      have ht : t.get? j = some a := h
      rw [findIndexJs_cons]
      by_cases hx : p x
      · simp [hx]
      · simp only [hx, if_false, List.take_succ_cons, List.all_cons, hx, Bool.not_false,
          Bool.true_and]
        rw [← ih j a ht hp]
        constructor
        · intro hmap
          rcases Option.map_eq_some'.mp hmap with ⟨k, hk, hk1⟩
          have : k = j := by omega
          rw [← this]; exact hk
        · intro hfi
          rw [hfi]; rfl

theorem isDupOf_self (r : SearchResult) : isDupOf r r = true := by
  simp [isDupOf]

theorem mem_enum_get? {α : Type} {x : Nat × α} {l : List α} :
    x ∈ l.enum ↔ l.get? x.1 = some x.2 := by
  rw [List.mem_enum_iff_getElem?, List.get?_eq_getElem?]

theorem dedup_keep_iff (rs : List SearchResult) (x : Nat × SearchResult)
    (hx : x ∈ rs.enum) :
    (findIndexJs (fun r => isDupOf r x.2) rs == some x.1) = noEarlierDup rs x.1 x.2 := by
  have hget : rs.get? x.1 = some x.2 := mem_enum_get?.mp hx
  have hiff := findIndexJs_eq_some_iff (fun r => isDupOf r x.2) rs x.1 x.2 hget
    (isDupOf_self x.2)
  rw [Bool.eq_iff_iff, beq_iff_eq, hiff]
  rfl

theorem dedup_eq_noEarlierDup_filter (rs : List SearchResult) :
    dedup rs = (rs.enum.filter (fun p => noEarlierDup rs p.1 p.2)).map Prod.snd := by
  unfold dedup
  congr 1
  exact List.filter_congr (fun x hx => dedup_keep_iff rs x hx)

theorem mem_of_mem_dedup {rs : List SearchResult} {r : SearchResult}
    (h : r ∈ dedup rs) : r ∈ rs := by
  unfold dedup at h
  rcases List.mem_map.mp h with ⟨x, hx, hsnd⟩
  have hmem := List.mem_of_mem_filter hx
  have hget := mem_enum_get?.mp hmem
  rw [← hsnd]
  exact List.get?_mem hget

theorem findSegmentForQuote_eq_some :
    ∀ (store : List Segment) (q : String) (s : Segment) (t : ℚ),
      findSegmentForQuote store q = some (s, t) →
      s ∈ store ∧ (findQuoteInSegment s q).found = true ∧
        t = (findQuoteInSegment s q).timestamp := by
  intro store q
  induction store with
  | nil => intro s t h; simp [findSegmentForQuote] at h
  | cons x rest ih =>
    intro s t h
    simp only [findSegmentForQuote] at h
    by_cases hf : (findQuoteInSegment x q).found = true
    · rw [if_pos hf] at h
      simp only [Option.some.injEq, Prod.mk.injEq] at h
      obtain ⟨rfl, rfl⟩ := h
      exact ⟨List.mem_cons_self x rest, hf, rfl⟩
    · rw [if_neg hf] at h
      obtain ⟨hmem, hfound, hts⟩ := ih s t h
      exact ⟨List.mem_cons_of_mem x hmem, hfound, hts⟩

theorem findSegmentForQuote_eq_none {store : List Segment} {q : String}
    (h : ∀ s ∈ store, (findQuoteInSegment s q).found = false) :
    findSegmentForQuote store q = none := by
  induction store with
  | nil => rfl
  | cons x rest ih =>
    have hx := h x (List.mem_cons_self x rest)
    simp only [findSegmentForQuote]
    rw [if_neg (by simp [hx])]
    exact ih (fun s hs => h s (List.mem_cons_of_mem x hs))

theorem findSegmentForQuote_first :
    ∀ (store : List Segment) (q : String) (k : Nat) (cs : Segment),
      store.get? k = some cs → (findQuoteInSegment cs q).found = true →
      (store.take k).all (fun s => !(findQuoteInSegment s q).found) = true →
      findSegmentForQuote store q = some (cs, (findQuoteInSegment cs q).timestamp) := by
  intro store q
  induction store with
  | nil => intro k cs hk _ _; simp at hk
  | cons x rest ih =>
    intro k cs hk hfound hearlier
    cases k with
    | zero =>
      obtain rfl : x = cs := Option.some.inj hk
      simp only [findSegmentForQuote]
      rw [if_pos hfound]
    | succ j =>
      rw [List.take_succ_cons, List.all_cons, Bool.and_eq_true] at hearlier
      obtain ⟨hx', hrest⟩ := hearlier
      have hx : (findQuoteInSegment x q).found = false := by simpa using hx'
      simp only [findSegmentForQuote]
      rw [if_neg (by simp [hx])]
      exact ih j cs hk hfound hrest

theorem getSegment_mem {store : List Segment} {id : String} {s : Segment}
    (h : getSegment store id = some s) : s ∈ store ∧ s.audioFile = id := by
  refine ⟨List.mem_of_find?_eq_some h, ?_⟩
  have := List.find?_some h
  simpa using this

theorem getSegment_self :
    ∀ (store : List Segment), (store.map (fun s => s.audioFile)).Nodup →
      ∀ {s : Segment}, s ∈ store → getSegment store s.audioFile = some s := by
  intro store
  induction store with
  | nil => intro _ s hs; simp at hs
  | cons x rest ih =>
    intro hnd s hs
    rw [List.map_cons, List.nodup_cons] at hnd
    obtain ⟨hnotin, hnd2⟩ := hnd
    rcases List.mem_cons.mp hs with rfl | hmem
    · exact List.find?_cons_of_pos rest (by simp)
    · have hne : (x.audioFile == s.audioFile) = false := by
        rw [beq_eq_false_iff_ne]
        intro heq
        exact hnotin (heq ▸ List.mem_map_of_mem (fun u => u.audioFile) hmem)
      unfold getSegment
      rw [List.find?_cons_of_neg rest (by simp [hne])]
      exact ih hnd2 hmem

theorem acceptsAt_cons_succ (w0 : Word) (rest : List Word) (qws : List String)
    (fq : String) (k : Nat) :
    acceptsAt (w0 :: rest) qws fq (k + 1) = acceptsAt rest qws fq k := rfl

theorem scanWords_of_acceptsAt :
    ∀ (words : List Word) (st : ℚ) (qws : List String) (fq : String) (i : Nat) (w : Word),
      words.get? i = some w → acceptsAt words qws fq i = true →
      ((List.range i).all (fun k => !(acceptsAt words qws fq k))) = true →
      scanWords st qws fq words = { found := true, timestamp := max 0 (w.start - st) } := by
  intro words
  induction words with
  | nil => intro st qws fq i w h; simp at h
  | cons w0 rest ih =>
    intro st qws fq i w hget hacc hprev
    cases i with
    | zero =>
      obtain rfl : w0 = w := Option.some.inj hget
      simp only [acceptsAt, List.get?_cons_zero, Bool.and_eq_true, decide_eq_true_eq,
        List.drop_succ_cons, List.drop_zero] at hacc
      obtain ⟨hanchor, hthr⟩ := hacc
      simp only [scanWords]
      rw [if_pos hanchor, if_pos hthr]
    | succ j =>
      have hget2 : rest.get? j = some w := hget
      rw [List.range_succ_eq_map, List.all_cons, Bool.and_eq_true] at hprev
      obtain ⟨h0, hrest⟩ := hprev
      have h0' : acceptsAt (w0 :: rest) qws fq 0 = false := by simpa using h0
      rw [List.all_map] at hrest
      have hprevrest : (List.range j).all (fun k => !(acceptsAt rest qws fq k)) = true :=
        hrest
      have hstep : scanWords st qws fq (w0 :: rest) = scanWords st qws fq rest := by
        simp only [scanWords]
        by_cases hanchor : anchorMatch (cleanToken w0.word) fq = true
        · rw [if_pos hanchor]
          by_cases hthr : (((1 + matchCountFrom rest qws 1 (min qws.length 5 - 1) : Nat)) : ℚ) ≥
              ((min qws.length 5 : Nat) : ℚ) * 0.6
          · exfalso
            have hacc0 : acceptsAt (w0 :: rest) qws fq 0 = true := by
              simp only [acceptsAt, List.get?_cons_zero, Bool.and_eq_true, decide_eq_true_eq]
              exact ⟨hanchor, hthr⟩
            rw [h0'] at hacc0
            exact Bool.false_ne_true hacc0
          · rw [if_neg hthr]
        · rw [if_neg hanchor]
      rw [hstep]
      exact ih st qws fq j w hget2 hacc hprevrest

theorem threshold_iff (m w : Nat) :
    (((m : ℚ)) ≥ ((w : ℚ)) * 0.6) ↔ 6 * w ≤ 10 * m := by
  rw [show (0.6 : ℚ) = 6 / 10 from by norm_num, ge_iff_le, ← mul_div_assoc,
    div_le_iff₀ (by norm_num : (0:ℚ) < 10)]
  rw [show ((w:ℚ) * 6 ≤ (m:ℚ) * 10) ↔ (w * 6 ≤ m * 10) from by exact_mod_cast Iff.rfl]
  omega

theorem matchCountFrom_eq_filter_length (rest : List Word) (qws : List String) :
    ∀ (remaining j : Nat),
      matchCountFrom rest qws j remaining =
        ((List.range' j remaining).filter (fun j2 => lookNext rest qws j2)).length := by
  intro remaining
  induction remaining with
  | zero => intro j; rfl
  | succ n ih =>
    intro j
    rw [List.range'_succ, List.filter_cons]
    by_cases h : lookNext rest qws j
    · simp [matchCountFrom, h, ih, Nat.add_comm]
    · simp [matchCountFrom, h, ih]

theorem lookNext_drop (words : List Word) (qws : List String) (i j : Nat) (hj : 1 ≤ j) :
    lookNext (words.drop (i + 1)) qws j = lookaheadAt words qws i j := by
  unfold lookNext lookaheadAt
  rw [List.get?_eq_getElem?, List.get?_eq_getElem?, List.getElem?_drop,
    show i + 1 + (j - 1) = i + j from by omega]

theorem scanWords_single_found_iff :
    ∀ (ws : List Word) (st : ℚ) (q : String),
      ((scanWords st [q] q ws).found = true) ↔
        ∃ w ∈ ws, anchorMatch (cleanToken w.word) q = true := by
  intro ws st q
  induction ws with
  | nil => simp [scanWords]
  | cons w rest ih =>
    simp only [scanWords]
    by_cases hanchor : anchorMatch (cleanToken w.word) q = true
    · rw [if_pos hanchor]
      have hthr : ((1 + matchCountFrom rest [q] 1 (min (List.length [q]) 5 - 1) : Nat) : ℚ) ≥
          ((min (List.length [q]) 5 : Nat) : ℚ) * 0.6 := by
        show ((1 : Nat) : ℚ) ≥ ((1 : Nat) : ℚ) * 0.6
        norm_num
      rw [if_pos hthr]
      simp only [true_iff]
      exact ⟨w, List.mem_cons_self w rest, hanchor⟩
    · rw [if_neg hanchor, ih]
      constructor
      · intro ⟨w2, hw2, ha2⟩
        exact ⟨w2, List.mem_cons_of_mem w hw2, ha2⟩
      · intro ⟨w2, hw2, ha2⟩
        rcases List.mem_cons.mp hw2 with rfl | hmem
        · exact absurd ha2 hanchor
        · exact ⟨w2, hmem, ha2⟩

theorem dropWhile_eq_self_of_head (p : Char → Bool) (c : Char) (l : List Char)
    (h : p c = false) : (c :: l).dropWhile p = c :: l := by
  simp [List.dropWhile_cons, h]

theorem trimChars_wrapped (mid : List Char) :
    trimChars ((Char.ofNat 96 :: mid) ++ [Char.ofNat 96]) =
      (Char.ofNat 96 :: mid) ++ [Char.ofNat 96] := by
  unfold trimChars
  rw [List.cons_append, dropWhile_eq_self_of_head _ _ _ (by decide)]
  rw [show (Char.ofNat 96 :: (mid ++ [Char.ofNat 96])).reverse =
    Char.ofNat 96 :: (mid.reverse ++ [Char.ofNat 96]) from by simp]
  rw [dropWhile_eq_self_of_head _ _ _ (by decide)]
  simp

theorem hasPrefixChars_append_self : ∀ (t l : List Char), hasPrefixChars (t ++ l) t = true := by
  intro t
  induction t with
  | nil => intro l; simp [hasPrefixChars]
  | cons a t2 ih => intro l; simp [hasPrefixChars, ih]

theorem hasPrefixChars_append_both :
    ∀ (t a b : List Char), hasPrefixChars (t ++ a) (t ++ b) = hasPrefixChars a b := by
  intro t a b
  induction t with
  | nil => rfl
  | cons c t2 ih => simp [hasPrefixChars, ih]

theorem hasPrefixChars_iff_take :
    ∀ (t l : List Char), hasPrefixChars l t = true ↔ l.take t.length = t := by
  intro t
  induction t with
  | nil => intro l; simp [hasPrefixChars]
  | cons b t2 ih =>
    intro l
    cases l with
    | nil => simp [hasPrefixChars]
    | cons a l2 =>
      simp only [hasPrefixChars, Bool.and_eq_true, beq_iff_eq, List.length_cons,
        List.take_succ_cons, List.cons.injEq]
      rw [ih l2]

theorem json_prefix_of_append (body : List Char)
    (h : hasPrefixChars (body ++ fence) jsonTag = true) :
    hasPrefixChars body jsonTag = true := by
  rw [hasPrefixChars_iff_take] at h
  by_cases hlen : jsonTag.length ≤ body.length
  · rw [List.take_append_of_le_length hlen] at h
    rw [hasPrefixChars_iff_take]
    exact h
  · exfalso
    push_neg at hlen
    have hget : ((body ++ fence).take jsonTag.length).get? body.length =
        (body ++ fence).get? body.length := List.get?_take hlen
    rw [h] at hget
    have hbtk : (body ++ fence).get? body.length = some (Char.ofNat 96) := by
      rw [List.get?_append_right (le_refl body.length), Nat.sub_self]
      decide
    rw [hbtk] at hget
    have hno : ∀ k, k < 4 → jsonTag.get? k ≠ some (Char.ofNat 96) := by decide
    exact hno body.length (by simpa using hlen) hget

theorem cleanChars_json_fenced (body : List Char) :
    cleanChars (fenceJson ++ body ++ fence) = trimChars body := by
  have hA : fenceJson ++ body ++ fence =
      (Char.ofNat 96 :: ("``json".data ++ body ++ "``".data)) ++ [Char.ofNat 96] := by
    rw [show fenceJson = Char.ofNat 96 :: "``json".data from by decide,
        show fence = "``".data ++ [Char.ofNat 96] from by decide]
    simp
  have h0 : trimChars (fenceJson ++ body ++ fence) = fenceJson ++ body ++ fence := by
    rw [hA]; exact trimChars_wrapped _
  have h1 : hasPrefixChars (fenceJson ++ body ++ fence) fenceJson = true := by
    rw [List.append_assoc]; exact hasPrefixChars_append_self _ _
  have h2 : hasSuffixChars (body ++ fence) fence = true := by
    unfold hasSuffixChars
    rw [List.reverse_append]
    exact hasPrefixChars_append_self _ _
  simp only [cleanChars]
  rw [h0, h1, if_pos rfl]
  rw [List.append_assoc, show (7:Nat) = fenceJson.length from by decide, List.drop_left]
  rw [h2, if_pos rfl]
  rw [show (body ++ fence).length - 3 = body.length from by
    simp [List.length_append, show fence.length = 3 from by decide]]
  rw [List.take_left]

theorem cleanChars_plain_fenced (body : List Char)
    (hb : hasPrefixChars body jsonTag = false) :
    cleanChars (fence ++ body ++ fence) = trimChars body := by
  have hA : fence ++ body ++ fence =
      (Char.ofNat 96 :: ("``".data ++ body ++ "``".data)) ++ [Char.ofNat 96] := by
    rw [show fence = Char.ofNat 96 :: "``".data from by decide]
    simp
  have h0 : trimChars (fence ++ body ++ fence) = fence ++ body ++ fence := by
    rw [hA]; exact trimChars_wrapped _
  have hbf : hasPrefixChars (body ++ fence) jsonTag = false := by
    rcases Bool.eq_false_or_eq_true (hasPrefixChars (body ++ fence) jsonTag) with h | h
    · exact absurd (hb.symm.trans (json_prefix_of_append body h)) (by decide)
    · exact h
  simp only [cleanChars]
  rw [h0, List.append_assoc]
  rw [show hasPrefixChars (fence ++ (body ++ fence)) fenceJson = false from by
    rw [show fenceJson = fence ++ jsonTag from by decide, hasPrefixChars_append_both]
    exact hbf]
  rw [if_neg (show ¬(false = true) from by simp)]
  rw [hasPrefixChars_append_self fence (body ++ fence)]
  rw [if_pos (rfl : true = true)]
  rw [show (fence ++ (body ++ fence)).drop 3 = body ++ fence from by
    rw [show (3:Nat) = fence.length from by decide, List.drop_left]]
  rw [show hasSuffixChars (body ++ fence) fence = true from by
    unfold hasSuffixChars
    rw [List.reverse_append]
    exact hasPrefixChars_append_self _ _]
  rw [if_pos (rfl : true = true)]
  rw [show (body ++ fence).length - 3 = body.length from by
    simp [List.length_append, show fence.length = 3 from by decide]]
  rw [List.take_left]

/-- C1: for every list of claims and every transcript store (with the store's
unique-key invariant), every VerifiedMatch emitted by the reconciler is
self-consistent: looking up the match's `audioFile` in the store yields a
segment in which the Quote Locator finds the match's quote; no match is
emitted on the model's word alone. -/
theorem c1_emitted_matches_locate (claims : List GeminiMatch) (store : List Segment)
    (hnd : (store.map (fun s => s.audioFile)).Nodup) :
    ∀ r ∈ reconcile claims store,
      ∃ seg, getSegment store r.audioFile = some seg ∧
        (findQuoteInSegment seg r.quote).found = true := by
  intro r hr
  have hraw : r ∈ rawResults claims store := mem_of_mem_dedup hr
  rcases List.mem_filterMap.mp hraw with ⟨m, hm, hpc⟩
  cases hgs : getSegment store m.audioFile with
  | some claimedSegment =>
    simp only [processClaim, hgs] at hpc
    by_cases hf : (findQuoteInSegment claimedSegment m.quote).found = true
    · rw [if_pos hf] at hpc
      obtain rfl := Option.some.inj hpc
      exact ⟨claimedSegment, hgs, hf⟩
    · rw [if_neg hf] at hpc
      cases hfs : findSegmentForQuote store m.quote with
      | none => rw [hfs] at hpc; exact Option.noConfusion hpc
      | some p =>
        obtain ⟨cs, t⟩ := p
        rw [hfs] at hpc
        obtain rfl := Option.some.inj hpc
        obtain ⟨hmem, hfound, hts⟩ := findSegmentForQuote_eq_some store m.quote cs t hfs
        exact ⟨cs, getSegment_self store hnd hmem, hfound⟩
  | none =>
    simp only [processClaim, hgs] at hpc
    cases hfs : findSegmentForQuote store m.quote with
    | none => rw [hfs] at hpc; exact Option.noConfusion hpc
    | some p =>
      obtain ⟨cs, t⟩ := p
      rw [hfs] at hpc
      obtain rfl := Option.some.inj hpc
      obtain ⟨hmem, hfound, hts⟩ := findSegmentForQuote_eq_some store m.quote cs t hfs
      exact ⟨cs, getSegment_self store hnd hmem, hfound⟩

/-- Witness for C1 at a concrete claim list, store and emitted match. -/
theorem c1_witness :
    ∃ seg, getSegment [segA, segB] "a.mp3" = some seg ∧
      (findQuoteInSegment seg "alpha").found = true :=
  c1_emitted_matches_locate [mA1, mB] [segA, segB] (by decide)
    ⟨"a.mp3", 12, "subjA", "alpha"⟩ (by decide)

/-- C2: when the scan accepts a candidate at transcript word index `i` of a
segment with non-empty words and no earlier index is accepted, the locator
returns found with `timestamp = max 0 (words[i].start - startTime)`,
immediately at the first accepted candidate. -/
theorem c2_first_accepted_timestamp (seg : Segment) (quote fq : String)
    (restQ : List String) (i : Nat) (w : Word)
    (hqw : quoteWordsOf quote = fq :: restQ)
    (hw : seg.transcript.words.get? i = some w)
    (hacc : acceptsAt seg.transcript.words (fq :: restQ) fq i = true)
    (hfirst : ((List.range i).all
      (fun k => !(acceptsAt seg.transcript.words (fq :: restQ) fq k))) = true) :
    findQuoteInSegment seg quote =
      { found := true, timestamp := max 0 (w.start - seg.metadata.startTime) } := by
  have hne : seg.transcript.words.isEmpty = false := by
    cases hws : seg.transcript.words with
    | nil => rw [hws] at hw; exact absurd hw (by simp)
    | cons a l => rfl
  simp only [findQuoteInSegment, hne, Bool.false_eq_true, if_false, hqw]
  exact scanWords_of_acceptsAt seg.transcript.words seg.metadata.startTime
    (fq :: restQ) fq i w hw hacc hfirst

/-- Witness for C2: start offset 100, matched word at absolute start 130,
timestamp 30. -/
theorem c2_witness :
    findQuoteInSegment segC2 "thirty" = { found := true, timestamp := 30 } := by
  have h := c2_first_accepted_timestamp segC2 "thirty" "thirty" [] 0 ⟨"thirty", 130, 131⟩
    (by decide) (by decide) (by decide) (by decide)
  rw [h]
  decide

/-- C3 counterexample: the claim's two-directional candidate rule holds at
index 0 of `segC3` for quote "hello" (the quote-word contains the normalized
transcript word "he"), yet the code's one-directional anchor rule rejects it
and the quote is not found, refuting the claimed iff. -/
theorem c3_counterexample :
    anchorRuleSpec (cleanToken "he") "hello" = true ∧
    anchorMatch (cleanToken "he") "hello" = false ∧
    quoteWordsOf "hello" = ["hello"] ∧
    segC3.transcript.words.map (fun w => cleanToken w.word) = ["he"] ∧
    findQuoteInSegment segC3 "hello" = { found := false, timestamp := 0 } := by
  decide

/-- C3 amended: the candidate-start rule is one-directional: index `i` is a
potential match start iff the normalized transcript word equals the first
quote-word or contains it as a substring (the direction quote-word-contains-
transcript-word does not trigger); observably, for a quote normalizing to a
single word, the locator finds it iff some transcript word satisfies this
one-directional rule. -/
theorem c3_anchor_one_directional (seg : Segment) (quote q : String)
    (hne : seg.transcript.words.isEmpty = false)
    (hqw : quoteWordsOf quote = [q]) :
    ((findQuoteInSegment seg quote).found = true ↔
      ∃ w ∈ seg.transcript.words, anchorMatch (cleanToken w.word) q = true) := by
  simp only [findQuoteInSegment, hne, Bool.false_eq_true, if_false, hqw]
  exact scanWords_single_found_iff seg.transcript.words seg.metadata.startTime q

/-- Witness for the amended C3 at a concrete segment and single-word quote. -/
theorem c3_witness :
    ((findQuoteInSegment segC3b "hell").found = true ↔
      ∃ w ∈ segC3b.transcript.words, anchorMatch (cleanToken w.word) "hell" = true) :=
  c3_anchor_one_directional segC3b "hell" "hell" (by decide) (by decide)

/-- C9 counterexample: for a segment with an empty word list, the fallback
full-text substring search finds the punctuation-only quote "!!!" (whose
normalization is empty) and returns found, so "locate returns not-found on
punctuation-only quotes for every segment" fails. -/
theorem c9_counterexample :
    quoteWordsOf "!!!" = [] ∧
    segC9.transcript.words = [] ∧
    findQuoteInSegment segC9 "!!!" = { found := true, timestamp := 0 } := by
  decide

/-- C9 amended: for every segment with a non-empty word list, a quote whose
normalization yields an empty word sequence gives
`{found := false, timestamp := 0}`. -/
theorem c9_empty_normalization_not_found (seg : Segment) (quote : String)
    (hne : seg.transcript.words.isEmpty = false)
    (hq : quoteWordsOf quote = []) :
    findQuoteInSegment seg quote = { found := false, timestamp := 0 } := by
  simp only [findQuoteInSegment, hne, Bool.false_eq_true, if_false, hq]

/-- Witness for the amended C9 at a concrete segment and punctuation-only
quote. -/
theorem c9_witness : findQuoteInSegment segA "?!," = { found := false, timestamp := 0 } :=
  c9_empty_normalization_not_found segA "?!," (by decide) (by decide)

/-- C10: the deduplication pass compares each result against the earlier
elements of the pre-deduplication list, including elements that are
themselves discarded: of three results on one audio file at timestamps 0, 9
and 18, only the first survives although the first and third differ by more
than 10 seconds. -/
theorem c10_dedup_chained_discard :
    dedup [resT0, resT9, resT18] = [resT0] ∧
    ¬(|resT0.timestamp - resT18.timestamp| < 10) := by
  decide

/-- C4: at a candidate start with a matched anchor, the scan checks
`wordsToCheck = min (number of quote-words) 5` words in total: the anchor
counts as one match, quote-words `1 .. wordsToCheck - 1` are compared to the
transcript words at `i+1, i+2, ...` under the symmetric
equality-or-containment rule, and the candidate is accepted iff the match
count is at least 60 percent of `wordsToCheck`. -/
theorem c4_acceptance_threshold (words : List Word) (qws : List String)
    (fq : String) (i : Nat) (w : Word)
    (hw : words.get? i = some w)
    (ha : anchorMatch (cleanToken w.word) fq = true) :
    (acceptsAt words qws fq i = true ↔
      6 * min qws.length 5 ≤
        10 * (1 + ((List.range' 1 (min qws.length 5 - 1)).filter
          (fun j => lookaheadAt words qws i j)).length)) := by
  simp only [acceptsAt, hw, ha, Bool.true_and, decide_eq_true_eq]
  rw [threshold_iff]
  rw [matchCountFrom_eq_filter_length]
  rw [List.filter_congr
    (fun j hj => lookNext_drop words qws i j (List.mem_range'_1.mp hj).1)]

/-- Witness for C4 at a concrete word list and quote-word list (three quote
words, two of three checked words match, threshold reached). -/
theorem c4_witness :
    (acceptsAt [⟨"one", 0, 1⟩, ⟨"two", 1, 2⟩, ⟨"three", 2, 3⟩]
        ["one", "two", "xxx"] "one" 0 = true ↔
      6 * min (List.length ["one", "two", "xxx"]) 5 ≤
        10 * (1 + ((List.range' 1 (min (List.length ["one", "two", "xxx"]) 5 - 1)).filter
          (fun j => lookaheadAt [⟨"one", 0, 1⟩, ⟨"two", 1, 2⟩, ⟨"three", 2, 3⟩]
            ["one", "two", "xxx"] 0 j)).length)) :=
  c4_acceptance_threshold [⟨"one", 0, 1⟩, ⟨"two", 1, 2⟩, ⟨"three", 2, 3⟩]
    ["one", "two", "xxx"] "one" 0 ⟨"one", 0, 1⟩ (by decide) (by decide)

/-- C5: two VerifiedMatches count as duplicates exactly when they share the
audio file and their timestamps differ by less than 10 seconds, comparing
each result with the elements before it, and only the first occurrence is
kept: two claims resolving to timestamps 12 and 15 on one file yield one
result (the first); timestamps 12 and 25 yield two. -/
theorem c5_dedup_semantics :
    (∀ rs : List SearchResult,
      dedup rs = (rs.enum.filter (fun p => noEarlierDup rs p.1 p.2)).map Prod.snd) ∧
    reconcile [mA1, mA2] [segA] = [⟨"a.mp3", 12, "subjA", "alpha"⟩] ∧
    reconcile [mA1, mA3] [segA] =
      [⟨"a.mp3", 12, "subjA", "alpha"⟩, ⟨"a.mp3", 25, "subjA", "gamma"⟩] :=
  ⟨dedup_eq_noEarlierDup_filter, by decide, by decide⟩

/-- C6: a claim whose audio file is absent from the store, or whose quote
does not locate in its claimed segment, but whose quote locates in some
segment, is emitted carrying the audio file and subject of the first segment
in corpus order where the Quote Locator finds the quote. -/
theorem c6_reattribution_first_hit (store : List Segment) (m : GeminiMatch)
    (k : Nat) (cs : Segment)
    (hk : store.get? k = some cs)
    (hfound : (findQuoteInSegment cs m.quote).found = true)
    (hearlier : (store.take k).all (fun s => !(findQuoteInSegment s m.quote).found) = true)
    (hbad : getSegment store m.audioFile = none ∨
      ∃ seg, getSegment store m.audioFile = some seg ∧
        (findQuoteInSegment seg m.quote).found = false) :
    processClaim store m = some
      { audioFile := cs.audioFile, timestamp := (findQuoteInSegment cs m.quote).timestamp,
        subject := cs.metadata.subject, quote := m.quote } := by
  have hfs := findSegmentForQuote_first store m.quote k cs hk hfound hearlier
  rcases hbad with hnone | ⟨seg, hsome, hnf⟩
  · simp only [processClaim, hnone, hfs]
  · simp only [processClaim, hsome, hfs]
    rw [if_neg (by simp [hnf])]

/-- Witness for C6: a claim naming an absent audio file whose quote lives in
the second segment is reattributed to that segment. -/
theorem c6_witness :
    processClaim [segA, segB] mB = some
      { audioFile := "b.mp3", timestamp := 40, subject := "subjB", quote := "zeta" } := by
  have h := c6_reattribution_first_hit [segA, segB] mB 1 segB
    (by decide) (by decide) (by decide) (Or.inl (by decide))
  rw [h]
  decide

/-- C7: the parser strips a leading three-backtick fence (tagged `json` or
bare) and a trailing three-backtick fence and parses the remainder; a parse
failure or a non-array value yields the empty claim list and a successful
response with empty results, never a propagated error. -/
theorem c7_parse_error_handling :
    (∀ (parse : String → Option JsValue) (store : List Segment) (s : String),
      parse (cleanResponse s) = none →
        searchPipeline parse store s = { results := [] }) ∧
    (∀ (parse : String → Option JsValue) (store : List Segment) (s : String),
      parse (cleanResponse s) = some JsValue.nonArray →
        searchPipeline parse store s = { results := [] }) ∧
    (∀ (parse : String → Option JsValue) (s : String) (ms : List GeminiMatch),
      parse (cleanResponse s) = some (JsValue.array ms) →
        parseClaims parse s = ms) ∧
    (∀ body : List Char, cleanChars (fenceJson ++ body ++ fence) = trimChars body) ∧
    (∀ body : List Char, hasPrefixChars body jsonTag = false →
      cleanChars (fence ++ body ++ fence) = trimChars body) := by
  refine ⟨?_, ?_, ?_, cleanChars_json_fenced, cleanChars_plain_fenced⟩
  · intro parse store s h
    simp only [searchPipeline, parseClaims, h]
    rfl
  · intro parse store s h
    simp only [searchPipeline, parseClaims, h]
    rfl
  · intro parse s ms h
    simp only [parseClaims, h]

/-- Witness for C7: a failing parse yields empty results, and both fence
shapes strip to the trimmed body. -/
theorem c7_witness :
    searchPipeline (fun _ => none) [segA] "oops" = { results := [] } ∧
    cleanChars (fenceJson ++ "[]".data ++ fence) = trimChars "[]".data ∧
    cleanChars (fence ++ "[]".data ++ fence) = trimChars "[]".data :=
  ⟨c7_parse_error_handling.1 (fun _ => none) [segA] "oops" rfl,
   c7_parse_error_handling.2.2.2.1 "[]".data,
   c7_parse_error_handling.2.2.2.2 "[]".data (by decide)⟩

theorem processClaim_eq_none {store : List Segment} {m : GeminiMatch}
    (h : ∀ s ∈ store, (findQuoteInSegment s m.quote).found = false) :
    processClaim store m = none := by
  have hfs : findSegmentForQuote store m.quote = none := findSegmentForQuote_eq_none h
  cases hgs : getSegment store m.audioFile with
  | none => simp only [processClaim, hgs, hfs]
  | some seg =>
    have hmem := (getSegment_mem hgs).1
    have hnf := h seg hmem
    simp only [processClaim, hgs, hfs]
    rw [if_neg (by simp [hnf])]

/-- C8: a claim whose quote the Quote Locator finds in no segment of the
store produces no VerifiedMatch and raises no error; the remaining claims
are processed in their received order, unaffected. -/
theorem c8_unfindable_claim_dropped (store : List Segment)
    (claims1 claims2 : List GeminiMatch) (m : GeminiMatch)
    (h : store.all (fun s => !(findQuoteInSegment s m.quote).found) = true) :
    reconcile (claims1 ++ m :: claims2) store = reconcile (claims1 ++ claims2) store := by
  have h2 : ∀ s ∈ store, (findQuoteInSegment s m.quote).found = false := by
    intro s hs
    have := List.all_eq_true.mp h s hs
    simpa using this
  have hnone : processClaim store m = none := processClaim_eq_none h2
  unfold reconcile rawResults
  rw [List.filterMap_append, List.filterMap_append,
    show (m :: claims2).filterMap (processClaim store) =
      claims2.filterMap (processClaim store) from by
        rw [List.filterMap_cons, hnone]]

/-- Witness for C8: dropping an unfindable claim leaves the surrounding
claims' reconciliation unchanged. -/
theorem c8_witness :
    reconcile ([mA1] ++ mNone :: [mA3]) [segA] = reconcile ([mA1] ++ [mA3]) [segA] :=
  c8_unfindable_claim_dropped [segA] [mA1] [mA3] mNone (by decide)

end SkvAudio
